import Mathlib

/-!
# Verification of the AnonSocial anonymous-action protocol

A shallow embedding of the `AnonSocial` Solidity contract
(`src/unnamed/part_003`) and of the content-addressing codec
(`src/frontend/src/hooks/useIPFS.ts`), together with theorems settling the
specification's claims about them.

Conventions of the embedding:
* `uint256` / `bytes32` values are `Nat` (the contract performs no arithmetic
  on them, only equality and hashing, so no modular wrap can occur);
  `int256` vote tallies are `Int` (the tallies move by ±1 per accepted vote,
  far from the `int256` overflow bound).
* `keccak256` is modelled as an injective encoding of its preimage byte
  string: the development relies only on collision-freeness of the hash,
  never on any other property of keccak.
* Solidity mappings are association lists with most-recent-first lookup;
  a revert is an `Except.error` carrying the contract's error, and leaves
  the caller-visible state untouched (`stepOp`).
* the external `ISemaphore.validateProof` call is a parameter
  `validate : SemaphoreProof → Bool` of each transition (the Semaphore
  contract itself is an external collaborator, not part of this repository);
  `validate _ = false` models its revert, which is surfaced as
  `ContractError.externalRevert`, distinct from the errors `AnonSocial`
  itself declares.
-/

/-- Big-endian base-`b` accumulation, `foldl (acc * b + d)` — the digit/byte
accumulation loop shared by `abi.encodePacked` modelling and the base-58
codec (`value = value * 58n + BigInt(idx)` and `value = value * 256n + b`). -/
def foldBase (b : Nat) (l : List Nat) : Nat :=
  l.foldl (fun acc d => acc * b + d) 0

/-- `beBytes k n`: the `k`-byte big-endian encoding of `n % 256 ^ k` — the
byte string `abi.encodePacked` produces for a `uint256`/`bytes32` value
(`k = 32`). -/
def beBytes : Nat → Nat → List Nat
  | 0, _ => []
  | k + 1, n => beBytes k (n / 256) ++ [n % 256]

/-- The byte string of an ASCII string literal, as `abi.encodePacked`
lays out a Solidity `string` literal. -/
def strBytes (s : String) : List Nat :=
  s.toList.map Char.toNat

/-- `keccak256`, modelled as an injective encoding of the preimage byte
string (base-257 with digits `1..256`, so distinct byte strings get distinct
hashes: only collision-freeness of the real hash is relied upon). -/
def keccak256 : List Nat → Nat
  | [] => 0
  | b :: t => (b % 256 + 1) + 257 * keccak256 t

/-- `ISemaphore.SemaphoreProof` (src/unnamed/part_003, lines 6–13). -/
structure SemaphoreProof where
  merkleTreeDepth : Nat
  merkleTreeRoot : Nat
  nullifier : Nat
  message : Nat
  scope : Nat
  points : List Nat
deriving DecidableEq

/-- The errors a failed `postAnonymous` / `voteAnonymous` call can surface.
`NullifierAlreadyUsed` and `InvalidProof` are the errors the contract
declares (lines 38–39); `externalRevert` is a revert propagated out of the
external `semaphore.validateProof` call (line 80 / line 116), which carries
the Semaphore contract's own error data, not an `AnonSocial` error. -/
inductive ContractError where
  | NullifierAlreadyUsed
  | InvalidProof
  | externalRevert
deriving DecidableEq

/-- Events emitted by the contract (lines 33–35). -/
inductive LedgerEvent where
  | PostCreated (ipfsHash : Nat) (timestamp : Nat)
  | VoteCast (postId : Nat) (upvote : Bool)
  | MemberJoined (identityCommitment : Nat)
deriving DecidableEq

/-- The mutable state of the `AnonSocial` contract: the `nullifiers` used-set
(`mapping(bytes32 => bool)`, line 27, represented by the list of keys marked
`true`), the `postVotes` tally (`mapping(bytes32 => int256)`, line 30, an
association list read through `getVotes`), the member commitments of the
contract's Semaphore group (held by the external Semaphore contract and
appended to by `joinGroup`), and the emitted event log. -/
structure AnonSocialState where
  nullifiers : List Nat
  postVotes : List (Nat × Int)
  members : List Nat
  events : List LedgerEvent
deriving DecidableEq

/-- The state at deployment: no nullifier used, every tally zero, the fresh
Semaphore group empty, no event emitted. -/
def initState : AnonSocialState :=
  { nullifiers := [], postVotes := [], members := [], events := [] }

/-- `keccak256(abi.encodePacked("post", nullifierHash))` — the nullifier key
of a post action (line 68). -/
def postNullifierKey (nullifierHash : Nat) : Nat :=
  keccak256 (strBytes ("post") ++ beBytes 32 nullifierHash)

/-- `keccak256(abi.encodePacked("vote", postId, nullifierHash))` — the
nullifier key of a vote action (line 102). -/
def voteNullifierKey (postId nullifierHash : Nat) : Nat :=
  keccak256 (strBytes ("vote") ++ beBytes 32 postId ++ beBytes 32 nullifierHash)

/-- `uint256(keccak256("anon-social-post"))` — the scope of every post
action (line 76). -/
def POST_SCOPE : Nat :=
  keccak256 (strBytes ("anon-social-post"))

/-- `uint256(keccak256(abi.encodePacked("anon-social-vote", postId)))` — the
scope of a vote action on `postId` (line 112). -/
def voteScope (postId : Nat) : Nat :=
  keccak256 (strBytes ("anon-social-vote") ++ beBytes 32 postId)

/-- `uint256(keccak256(abi.encodePacked(postId, upvote)))` — the message a
vote proof is validated against (line 105); `bool` packs to one byte. -/
def voteMessage (postId : Nat) (upvote : Bool) : Nat :=
  keccak256 (beBytes 32 postId ++ [if upvote then 1 else 0])

/-- The `SemaphoreProof` record `postAnonymous` hands to
`semaphore.validateProof` (lines 71–78): `message = uint256(ipfsHash)`,
`scope = uint256(keccak256("anon-social-post"))`. -/
def postSemProof (merkleTreeDepth merkleTreeRoot nullifierHash ipfsHash : Nat)
    (points : List Nat) : SemaphoreProof :=
  { merkleTreeDepth := merkleTreeDepth
    merkleTreeRoot := merkleTreeRoot
    nullifier := nullifierHash
    message := ipfsHash
    scope := POST_SCOPE
    points := points }

/-- The `SemaphoreProof` record `voteAnonymous` hands to
`semaphore.validateProof` (lines 107–114). -/
def voteSemProof (merkleTreeDepth merkleTreeRoot nullifierHash postId : Nat)
    (upvote : Bool) (points : List Nat) : SemaphoreProof :=
  { merkleTreeDepth := merkleTreeDepth
    merkleTreeRoot := merkleTreeRoot
    nullifier := nullifierHash
    message := voteMessage postId upvote
    scope := voteScope postId
    points := points }

/-- `joinGroup` (lines 50–53): forwards the commitment to
`semaphore.addMember` (which appends it to the group's member sequence) and
emits `MemberJoined`. -/
def joinGroup (s : AnonSocialState) (identityCommitment : Nat) :
    Except ContractError AnonSocialState :=
  .ok { s with
          members := s.members ++ [identityCommitment]
          events := s.events ++ [.MemberJoined identityCommitment] }

/-- `postAnonymous` (lines 61–85): reuse check on the post nullifier key
first, then external proof validation, then the nullifier is marked used and
`PostCreated` is emitted. `blockTimestamp` is `block.timestamp`. -/
def postAnonymous (validate : SemaphoreProof → Bool) (s : AnonSocialState)
    (merkleTreeDepth merkleTreeRoot nullifierHash ipfsHash blockTimestamp : Nat)
    (points : List Nat) : Except ContractError AnonSocialState :=
  let nullifierKey := postNullifierKey nullifierHash
  if s.nullifiers.contains nullifierKey then
    .error .NullifierAlreadyUsed
  else
    let semProof := postSemProof merkleTreeDepth merkleTreeRoot nullifierHash
      ipfsHash points
    if validate semProof then
      .ok { s with
              nullifiers := nullifierKey :: s.nullifiers
              events := s.events ++ [.PostCreated ipfsHash blockTimestamp] }
    else
      .error .externalRevert

/-- `voteAnonymous` (lines 94–127): reuse check on the per-post vote
nullifier key first, then external proof validation, then the nullifier is
marked used, the tally moves by ±1 and `VoteCast` is emitted. -/
def voteAnonymous (validate : SemaphoreProof → Bool) (s : AnonSocialState)
    (merkleTreeDepth merkleTreeRoot nullifierHash postId : Nat) (upvote : Bool)
    (points : List Nat) : Except ContractError AnonSocialState :=
  let nullifierKey := voteNullifierKey postId nullifierHash
  if s.nullifiers.contains nullifierKey then
    .error .NullifierAlreadyUsed
  else
    let semProof := voteSemProof merkleTreeDepth merkleTreeRoot nullifierHash
      postId upvote points
    if validate semProof then
      let old : Int := ((s.postVotes.lookup postId).getD 0)
      .ok { s with
              nullifiers := nullifierKey :: s.nullifiers
              postVotes := (postId, if upvote then old + 1 else old - 1) :: s.postVotes
              events := s.events ++ [.VoteCast postId upvote] }
    else
      .error .externalRevert

/-- `getVotes` (lines 130–132): pure read of the tally mapping, `0` for an
absent key. -/
def getVotes (s : AnonSocialState) (postId : Nat) : Int :=
  (s.postVotes.lookup postId).getD 0

/-- One external call to the contract, with the behavior of the external
`validateProof` bundled into the proof-carrying calls. -/
inductive LedgerOp where
  | join (identityCommitment : Nat)
  | post (validate : SemaphoreProof → Bool)
      (merkleTreeDepth merkleTreeRoot nullifierHash ipfsHash blockTimestamp : Nat)
      (points : List Nat)
  | vote (validate : SemaphoreProof → Bool)
      (merkleTreeDepth merkleTreeRoot nullifierHash postId : Nat) (upvote : Bool)
      (points : List Nat)
  | read (postId : Nat)

/-- Outcome of one call: the new state on success, the surfaced error on
revert. -/
def applyOp (s : AnonSocialState) : LedgerOp → Except ContractError AnonSocialState
  | .join c => joinGroup s c
  | .post v d r n h t pts => postAnonymous v s d r n h t pts
  | .vote v d r n p u pts => voteAnonymous v s d r n p u pts
  | .read _ => .ok s

/-- The caller-visible state after one call: a revert rolls the transaction
back, so a failed call leaves the state it started from. -/
def stepOp (s : AnonSocialState) (op : LedgerOp) : AnonSocialState :=
  match applyOp s op with
  | .ok s' => s'
  | .error _ => s

/-- The state after a sequence of calls. -/
def runOps (s : AnonSocialState) (ops : List LedgerOp) : AnonSocialState :=
  ops.foldl stepOp s

/-- One `voteAnonymous` call's arguments, all targeting a fixed `postId`. -/
structure VoteCall where
  merkleTreeDepth : Nat
  merkleTreeRoot : Nat
  nullifierHash : Nat
  upvote : Bool
  points : List Nat
deriving DecidableEq

/-- Run a sequence of `voteAnonymous` calls on one `postId`; `none` as soon
as any call reverts, so a `some` result means every call was accepted. -/
def runVotes (validate : SemaphoreProof → Bool) (postId : Nat) :
    AnonSocialState → List VoteCall → Option AnonSocialState
  | s, [] => some s
  | s, c :: rest =>
    match voteAnonymous validate s c.merkleTreeDepth c.merkleTreeRoot
        c.nullifierHash postId c.upvote c.points with
    | .ok s' => runVotes validate postId s' rest
    | .error _ => none

/-- Upvotes in a list of vote calls. -/
def upCount (l : List VoteCall) : Nat :=
  l.countP (fun c => c.upvote)

/-- Downvotes in a list of vote calls. -/
def downCount (l : List VoteCall) : Nat :=
  l.countP (fun c => !c.upvote)

/-! ### Content-addressing codec (src/frontend/src/hooks/useIPFS.ts)

The codec is embedded over `List Char` / `List Nat`; JS strings are Lean
`String`s (a structure over `List Char` in this toolchain), JS `Uint8Array`s
are `List Nat` with entries below 256, and a thrown `Error` (the spec's
`MalformedIdentifier`) is `none`. -/

/-- Base-58 alphabet of the codec (useIPFS.ts line 18). -/
def BASE58_ALPHABET : List Char :=
  ("123456789ABCDEFGHJKLMNPQRSTUVWXYZabcdefghijkmnopqrstuvwxyz").toList

/-- Base-32 alphabet of the codec (line 19). -/
def BASE32_ALPHABET : List Char :=
  ("abcdefghijklmnopqrstuvwxyz234567").toList

/-- First index of a character in an alphabet — JS `String.prototype.indexOf`,
with `none` for the JS `-1` sentinel. -/
def idxIn : List Char → Char → Option Nat
  | [], _ => none
  | a :: t, c => if a = c then some 0 else (idxIn t c).map (· + 1)

/-- JS `String.prototype.startsWith`: list-prefix test on the characters. -/
def strStartsWith (s p : String) : Bool :=
  p.toList.isPrefixOf s.toList

/-- The `while (value > 0n)` digit-extraction loop of the base-58 codec:
push the low-order digit and divide, here in fuel-guarded big-endian form
(`fuel` bounds the iteration count; any `fuel ≥ value` is exact). -/
def toDigitsBE (b : Nat) : Nat → Nat → List Nat
  | 0, _ => []
  | fuel + 1, value =>
    if value = 0 then []
    else toDigitsBE b fuel (value / b) ++ [value % b]

/-- The big-endian base-`b` digits of `value`, with no leading zero digit —
exactly what the JS `while (value > 0n) { out.push(value % b); value /= b }`
loop plus a reverse produces. -/
def natToBase (b : Nat) (value : Nat) : List Nat :=
  toDigitsBE b value value

/-- The base-58 digit values of a character list; `none` as soon as a
character is outside the alphabet (`throw new Error("Invalid base58 CID")`,
line 27). -/
def b58Digits : List Char → Option (List Nat)
  | [] => some []
  | c :: rest =>
    match idxIn BASE58_ALPHABET c, b58Digits rest with
    | some d, some ds => some (d :: ds)
    | _, _ => none

/-- `base58Decode` (lines 21–45): empty input decodes to the empty byte
array; otherwise fold the digit values into one big number (`value = value *
58n + idx`), write it out in big-endian base 256 (the JS loop pushes
low-order bytes and reverses, i.e. `(Nat.digits 256 value).reverse`), and
prepend one zero byte per leading `'1'` character. -/
def base58Decode (s : String) : Option (List Nat) :=
  if s.length = 0 then some []
  else
    match b58Digits s.toList with
    | none => none
    | some ds =>
      let value := foldBase 58 ds
      let bytes := natToBase 256 value
      let leadingZeroes := (s.toList.takeWhile (fun c => c == '1')).length
      some (List.replicate leadingZeroes 0 ++ bytes)

/-- `base58Encode` (lines 47–69): empty input encodes to the empty string;
otherwise fold the bytes into one big number, render its big-endian base-58
digits through the alphabet (the digit values are below 58, so the default
character of `getD` is unreachable), and prepend one `'1'` per leading zero
byte, falling back to `"1"` when the digit string is empty (`out || "1"`). -/
def base58Encode (bytes : List Nat) : String :=
  if bytes = [] then ("")
  else
    let value := foldBase 256 bytes
    let out := List.asString ((natToBase 58 value).map
      (fun d => BASE58_ALPHABET.getD d ' '))
    let leadingZeroes := (bytes.takeWhile (fun b => b == 0)).length
    List.asString (List.replicate leadingZeroes '1') ++
      (if out = ("") then ("1") else out)

/-- The accumulator loop of `base32Decode` (lines 71–90): five bits per
character, lowercased before alphabet lookup; `value` is the JS 32-bit
register (`(value << 5) | idx`, hence the `% 2 ^ 32`), `bits` counts pending
bits (below 8 at every loop entry, so the JS inner `while` extracts at most
one byte, `(value >>> (bits - 8)) & 0xff`, per character); the output bytes
are collected in reverse. -/
def base32Core : List Char → Nat → Nat → List Nat → Option (List Nat)
  | [], _, _, out => some out.reverse
  | c :: rest, bits, value, out =>
    match idxIn BASE32_ALPHABET c.toLower with
    | none => none
    | some idx =>
      let value' := (value * 32 + idx) % 2 ^ 32
      let bits' := bits + 5
      if 8 ≤ bits' then
        base32Core rest (bits' - 8) value' ((value' / 2 ^ (bits' - 8)) % 256 :: out)
      else
        base32Core rest bits' value' out

/-- `base32Decode` (lines 71–90): run the 5-bit accumulator over the whole
string; `none` on any character outside the alphabet (`throw new
Error("Invalid base32 CID")`). -/
def base32Decode (s : String) : Option (List Nat) :=
  base32Core s.toList 0 0 []

/-- The loop of `readVarint` (lines 92–107): seven payload bits per byte
(`byte & 0x7f`), accumulated little-endian with JS 32-bit `|` / `<<`
semantics (`result |= (byte & 0x7f) << shift`: shift counts act mod 32 and
the result is a 32-bit register); a byte with the continuation bit clear
(`byte & 0x80 === 0`) ends the varint with the running absolute index;
running off the buffer is `throw new Error("Invalid CID varint")`. -/
def readVarintCore : List Nat → Nat → Nat → Nat → Option (Nat × Nat)
  | [], _, _, _ => none
  | b :: rest, i, result, shift =>
    let result' := result ||| ((b % 128) * 2 ^ (shift % 32)) % 2 ^ 32
    if b % 256 < 128 then some (result', i + 1)
    else readVarintCore rest (i + 1) result' (shift + 7)

/-- `readVarint` (lines 92–107), reading at `offset` into the byte buffer. -/
def readVarint (bytes : List Nat) (offset : Nat) : Option (Nat × Nat) :=
  readVarintCore (bytes.drop offset) offset 0 0

/-- `extractSha256DigestFromCid` (lines 109–145): a legacy `Qm…` CIDv0 must
base-58 decode to exactly 34 bytes `0x12 0x20 ‖ digest`; a modern `b…` CIDv1
must base-32 decode to varints `version = 1`, `codec ≠ 0`, `hashCode = 0x12`,
`hashLen = 32` followed by a 32-byte digest; anything else (including any
other leading character) is a thrown `MalformedIdentifier`-class error,
modelled as `none`. -/
def extractSha256DigestFromCid (cid : String) : Option (List Nat) :=
  if strStartsWith cid ("Qm") then
    match base58Decode cid with
    | none => none
    | some decoded =>
      if decoded.length = 34 ∧ decoded.getD 0 0 = 18 ∧ decoded.getD 1 0 = 32 then
        some (decoded.drop 2)
      else none
  else if strStartsWith cid ("b") then
    match base32Decode (String.drop cid 1) with
    | none => none
    | some decoded =>
      match readVarint decoded 0 with
      | none => none
      | some version =>
        if version.1 ≠ 1 then none
        else
          match readVarint decoded version.2 with
          | none => none
          | some codec =>
            if codec.1 = 0 then none
            else
              match readVarint decoded codec.2 with
              | none => none
              | some hashCode =>
                match readVarint decoded hashCode.2 with
                | none => none
                | some hashLen =>
                  if hashCode.1 ≠ 18 ∨ hashLen.1 ≠ 32 then none
                  else
                    let digest := (decoded.drop hashLen.2).take hashLen.1
                    if digest.length = 32 then some digest else none
  else none

/-- Hex digits as produced by JS `Number.prototype.toString(16)`. -/
def HEX_DIGITS : List Char :=
  ("0123456789abcdef").toList

/-- One hex digit character (`d < 16` at every use site). -/
def hexChar (d : Nat) : Char :=
  HEX_DIGITS.getD d ' '

/-- `b.toString(16).padStart(2, "0")` for a byte `b < 256` (line 150). -/
def byteToHex (b : Nat) : List Char :=
  [hexChar (b / 16), hexChar (b % 16)]

/-- Value of one hex character for `parseInt(…, 16)`, which is
case-insensitive; `none` models a non-hex character. -/
def hexVal (c : Char) : Option Nat :=
  idxIn HEX_DIGITS c.toLower

/-- `parseInt(chunk, 16)` on a two-character chunk, followed by the JS
`Uint8Array` element coercion (line 158): `parseInt` parses the longest
valid prefix (so a valid first digit alone still yields its value) and
returns NaN when no digit parses, and `Uint8Array` coerces NaN to 0. -/
def parseHexPair (c₁ c₂ : Char) : Nat :=
  match hexVal c₁, hexVal c₂ with
  | some a, some b => a * 16 + b
  | some a, none => a
  | none, _ => 0

/-- `clean.match(/.{2}/g)` + per-chunk `parseInt` (line 158): split into
two-character chunks (a dangling odd character is dropped by the regex — the
callers only pass 64-character strings) and parse each. -/
def hexPairs : List Char → List Nat
  | c₁ :: c₂ :: rest => parseHexPair c₁ c₂ :: hexPairs rest
  | _ => []

/-- `cidToBytes32` (lines 147–152): extract the 32-byte digest and render it
as a `0x`-prefixed lowercase hex string; every codec failure propagates. -/
def cidToBytes32 (cid : String) : Option String :=
  (extractSha256DigestFromCid cid).map
    (fun digest => List.asString ('0' :: 'x' :: digest.flatMap byteToHex))

/-- `bytes32ToCid` (lines 154–165): strip an optional `0x`, require exactly
64 remaining characters (`throw new Error("Expected bytes32 hex value")`
otherwise), parse the 32 byte pairs, prepend the `0x12 0x20` sha2-256
multihash header and base-58 encode the 34-byte multihash. -/
def bytes32ToCid (hex : String) : Option String :=
  let clean := if strStartsWith hex ("0x") then hex.toList.drop 2 else hex.toList
  if clean.length ≠ 64 then none
  else some (base58Encode (18 :: 32 :: hexPairs clean))

/-! ## Helper lemmas -/

theorem contains_iff_mem {l : List Nat} {a : Nat} :
    l.contains a = true ↔ a ∈ l := by
  simp [List.contains_iff_exists_mem_beq]

theorem keccak256_cons_pos (b : Nat) (t : List Nat) : 0 < keccak256 (b :: t) := by
  unfold keccak256
  omega

theorem keccak256_inj : ∀ l₁ l₂ : List Nat, (∀ b ∈ l₁, b < 256) → (∀ b ∈ l₂, b < 256) →
    keccak256 l₁ = keccak256 l₂ → l₁ = l₂ := by
  intro l₁
  induction l₁ with
  | nil =>
    intro l₂ _ _ he
    cases l₂ with
    | nil => rfl
    | cons b t => exact absurd he.symm (Nat.ne_of_gt (keccak256_cons_pos b t))
  | cons a t ih =>
    intro l₂ h₁ h₂ he
    cases l₂ with
    | nil => exact absurd he (Nat.ne_of_gt (keccak256_cons_pos a t))
    | cons b t₂ =>
      have ha : a < 256 := h₁ a (List.mem_cons_self a t)
      have hb : b < 256 := h₂ b (List.mem_cons_self b t₂)
      unfold keccak256 at he
      rw [Nat.mod_eq_of_lt ha, Nat.mod_eq_of_lt hb] at he
      have hab : a = b := by omega
      have ht : keccak256 t = keccak256 t₂ := by omega
      rw [hab, ih t₂ (fun x hx => h₁ x (List.mem_cons_of_mem a hx))
        (fun x hx => h₂ x (List.mem_cons_of_mem b hx)) ht]

theorem beBytes_length (k : Nat) : ∀ n, (beBytes k n).length = k := by
  induction k with
  | zero => intro n; rfl
  | succ k ih => intro n; simp [beBytes, ih]

theorem beBytes_lt (k : Nat) : ∀ n, ∀ b ∈ beBytes k n, b < 256 := by
  induction k with
  | zero => intro n b hb; simp [beBytes] at hb
  | succ k ih =>
    intro n b hb
    simp only [beBytes, List.mem_append, List.mem_singleton] at hb
    rcases hb with h | h
    · exact ih _ b h
    · omega

theorem foldBase_append_singleton (b : Nat) (l : List Nat) (x : Nat) :
    foldBase b (l ++ [x]) = foldBase b l * b + x := by
  unfold foldBase
  rw [List.foldl_append]
  rfl

theorem foldBase_beBytes (k : Nat) : ∀ n, foldBase 256 (beBytes k n) = n % 256 ^ k := by
  induction k with
  | zero => intro n; simp [beBytes, foldBase]; omega
  | succ k ih =>
    intro n
    simp only [beBytes]
    rw [foldBase_append_singleton, ih, pow_succ, mul_comm (256 ^ k) 256, Nat.mod_mul]
    ring

theorem beBytes_inj {k a b : Nat} (ha : a < 256 ^ k) (hb : b < 256 ^ k)
    (h : beBytes k a = beBytes k b) : a = b := by
  have hf := congrArg (foldBase 256) h
  rw [foldBase_beBytes, foldBase_beBytes, Nat.mod_eq_of_lt ha, Nat.mod_eq_of_lt hb] at hf
  exact hf

theorem postAnonymous_eq_ok_iff {validate : SemaphoreProof → Bool} {s : AnonSocialState}
    {d r n h t : Nat} {pts : List Nat} {s' : AnonSocialState} :
    postAnonymous validate s d r n h t pts = .ok s' ↔
      postNullifierKey n ∉ s.nullifiers ∧
      validate (postSemProof d r n h pts) = true ∧
      s' = { s with
              nullifiers := postNullifierKey n :: s.nullifiers
              events := s.events ++ [.PostCreated h t] } := by
  by_cases hc : postNullifierKey n ∈ s.nullifiers <;>
    cases hv : validate (postSemProof d r n h pts) <;>
      simp [postAnonymous, hc, hv, eq_comm]

theorem postAnonymous_eq_error_iff {validate : SemaphoreProof → Bool} {s : AnonSocialState}
    {d r n h t : Nat} {pts : List Nat} {e : ContractError} :
    postAnonymous validate s d r n h t pts = .error e ↔
      (postNullifierKey n ∈ s.nullifiers ∧ e = .NullifierAlreadyUsed) ∨
      (postNullifierKey n ∉ s.nullifiers ∧
        validate (postSemProof d r n h pts) = false ∧ e = .externalRevert) := by
  by_cases hc : postNullifierKey n ∈ s.nullifiers <;>
    cases hv : validate (postSemProof d r n h pts) <;>
      simp [postAnonymous, hc, hv, eq_comm]

theorem voteAnonymous_eq_ok_iff {validate : SemaphoreProof → Bool} {s : AnonSocialState}
    {d r n p : Nat} {u : Bool} {pts : List Nat} {s' : AnonSocialState} :
    voteAnonymous validate s d r n p u pts = .ok s' ↔
      voteNullifierKey p n ∉ s.nullifiers ∧
      validate (voteSemProof d r n p u pts) = true ∧
      s' = { s with
              nullifiers := voteNullifierKey p n :: s.nullifiers
              postVotes := (p, if u then ((s.postVotes.lookup p).getD 0) + 1
                               else ((s.postVotes.lookup p).getD 0) - 1) :: s.postVotes
              events := s.events ++ [.VoteCast p u] } := by
  by_cases hc : voteNullifierKey p n ∈ s.nullifiers <;>
    cases hv : validate (voteSemProof d r n p u pts) <;>
      simp [voteAnonymous, hc, hv, eq_comm]

theorem voteAnonymous_eq_error_iff {validate : SemaphoreProof → Bool} {s : AnonSocialState}
    {d r n p : Nat} {u : Bool} {pts : List Nat} {e : ContractError} :
    voteAnonymous validate s d r n p u pts = .error e ↔
      (voteNullifierKey p n ∈ s.nullifiers ∧ e = .NullifierAlreadyUsed) ∨
      (voteNullifierKey p n ∉ s.nullifiers ∧
        validate (voteSemProof d r n p u pts) = false ∧ e = .externalRevert) := by
  by_cases hc : voteNullifierKey p n ∈ s.nullifiers <;>
    cases hv : validate (voteSemProof d r n p u pts) <;>
      simp [voteAnonymous, hc, hv, eq_comm]

theorem lookup_cons_self {p : Nat} {x : Int} {l : List (Nat × Int)} :
    List.lookup p ((p, x) :: l) = some x := by
  simp [List.lookup_cons]

/-! ## Claim theorems -/

/-- Claim C1: one action per identity per scope. For a fixed nullifier, once a
`postAnonymous` (resp. `voteAnonymous` on a fixed `postId`) succeeded, a second
attempt with the same nullifier (and post) always reverts with
`NullifierAlreadyUsed`, whatever proof points, tree arguments, and external
`validateProof` behavior the second attempt comes with (so no proof
verification can rescue it); the failed attempt leaves the state alone, and
the tally reflects exactly the one accepted vote. -/
theorem one_action_per_identity_per_scope (s : AnonSocialState) (n p : Nat) :
    (∀ (v₁ : SemaphoreProof → Bool) (d₁ r₁ h₁ t₁ : Nat) (pts₁ : List Nat)
        (sp : AnonSocialState),
      postAnonymous v₁ s d₁ r₁ n h₁ t₁ pts₁ = .ok sp →
      ∀ (v₂ : SemaphoreProof → Bool) (d₂ r₂ h₂ t₂ : Nat) (pts₂ : List Nat),
        postAnonymous v₂ sp d₂ r₂ n h₂ t₂ pts₂ = .error .NullifierAlreadyUsed) ∧
    (∀ (v₁ : SemaphoreProof → Bool) (d₁ r₁ : Nat) (u₁ : Bool) (pts₁ : List Nat)
        (sv : AnonSocialState),
      voteAnonymous v₁ s d₁ r₁ n p u₁ pts₁ = .ok sv →
      (∀ (v₂ : SemaphoreProof → Bool) (d₂ r₂ : Nat) (u₂ : Bool) (pts₂ : List Nat),
        voteAnonymous v₂ sv d₂ r₂ n p u₂ pts₂ = .error .NullifierAlreadyUsed ∧
        stepOp sv (.vote v₂ d₂ r₂ n p u₂ pts₂) = sv) ∧
      getVotes sv p = getVotes s p + (if u₁ then 1 else -1)) := by
  constructor
  · intro v₁ d₁ r₁ h₁ t₁ pts₁ sp hok v₂ d₂ r₂ h₂ t₂ pts₂
    obtain ⟨-, -, hs⟩ := postAnonymous_eq_ok_iff.mp hok
    exact postAnonymous_eq_error_iff.mpr
      (Or.inl ⟨by rw [hs]; exact List.mem_cons_self _ _, rfl⟩)
  · intro v₁ d₁ r₁ u₁ pts₁ sv hok
    obtain ⟨-, -, hs⟩ := voteAnonymous_eq_ok_iff.mp hok
    constructor
    · intro v₂ d₂ r₂ u₂ pts₂
      have herr : voteAnonymous v₂ sv d₂ r₂ n p u₂ pts₂ = .error .NullifierAlreadyUsed :=
        voteAnonymous_eq_error_iff.mpr
          (Or.inl ⟨by rw [hs]; exact List.mem_cons_self _ _, rfl⟩)
      exact ⟨herr, by simp [stepOp, applyOp, herr]⟩
    · rw [hs]
      cases u₁ <;> simp [getVotes, lookup_cons_self, sub_eq_add_neg]

/-- Witness for C1: on a fresh ledger a first post with nullifier 1 is
accepted, and a replay with the same nullifier (and a validator that accepts
everything) reverts with `NullifierAlreadyUsed`. -/
theorem one_action_per_identity_per_scope_witness :
    postAnonymous (fun _ => true)
      ⟨[postNullifierKey 1], [], [], [LedgerEvent.PostCreated 9 0]⟩
      0 0 1 9 0 [] = .error .NullifierAlreadyUsed :=
  (one_action_per_identity_per_scope initState 1 2).1 (fun _ => true) 0 0 9 0 []
    ⟨[postNullifierKey 1], [], [], [LedgerEvent.PostCreated 9 0]⟩ rfl
    (fun _ => true) 0 0 9 0 []

/-- Claim C2: per-step nullifier monotonicity — one ledger call never removes
a used nullifier key. -/
theorem stepOp_nullifier_mono (s : AnonSocialState) (op : LedgerOp) (k : Nat)
    (hk : k ∈ s.nullifiers) : k ∈ (stepOp s op).nullifiers := by
  cases op with
  | join c => simpa [stepOp, applyOp, joinGroup] using hk
  | post v d r n h t pts =>
    unfold stepOp
    cases hres : applyOp s (.post v d r n h t pts) with
    | error e => exact hk
    | ok s' =>
      simp only [applyOp] at hres
      obtain ⟨-, -, hs⟩ := postAnonymous_eq_ok_iff.mp hres
      rw [hs]
      exact List.mem_cons_of_mem _ hk
  | vote v d r n p u pts =>
    unfold stepOp
    cases hres : applyOp s (.vote v d r n p u pts) with
    | error e => exact hk
    | ok s' =>
      simp only [applyOp] at hres
      obtain ⟨-, -, hs⟩ := voteAnonymous_eq_ok_iff.mp hres
      rw [hs]
      exact List.mem_cons_of_mem _ hk
  | read q => simpa [stepOp, applyOp] using hk

/-- Claim C2: nullifier monotonicity. Once a nullifier key is marked used, it
stays used in every state reachable by any sequence of ledger operations
(`joinGroup`, `postAnonymous`, `voteAnonymous`, `getVotes` reads) — no
transition ever resets it. -/
theorem nullifier_monotonic (ops : List LedgerOp) (s : AnonSocialState) (k : Nat)
    (hk : k ∈ s.nullifiers) : k ∈ (runOps s ops).nullifiers := by
  induction ops generalizing s with
  | nil => exact hk
  | cons op rest ih => exact ih (stepOp s op) (stepOp_nullifier_mono s op k hk)

/-- Witness for C2: key 7, marked used, survives a join, a vote and a read. -/
theorem nullifier_monotonic_witness :
    7 ∈ (runOps ⟨[7], [], [], []⟩
      [.join 4, .vote (fun _ => true) 0 0 1 2 true [], .read 2]).nullifiers :=
  nullifier_monotonic _ ⟨[7], [], [], []⟩ 7 (by decide)

/-- Claim C8: atomicity on failure. Whenever a ledger call reverts (for any
of the two failure kinds: nullifier reuse or proof-validation failure), the
caller-visible state — nullifiers, tallies, membership and event log alike —
is exactly the state before the call. -/
theorem failed_calls_leave_state_unchanged (s : AnonSocialState) (op : LedgerOp)
    (e : ContractError) (h : applyOp s op = .error e) : stepOp s op = s := by
  simp [stepOp, h]

/-- Witness for C8: a vote whose proof fails validation leaves the fresh
ledger state untouched. -/
theorem failed_calls_leave_state_unchanged_witness :
    stepOp initState (.vote (fun _ => false) 0 0 1 2 true []) = initState :=
  failed_calls_leave_state_unchanged initState
    (.vote (fun _ => false) 0 0 1 2 true []) .externalRevert rfl

/-- Claim C9, counterexample: a `postAnonymous` call whose proof fails
external validation on a fresh ledger reverts with the revert propagated
from `semaphore.validateProof`, not with the contract's declared
`InvalidProof` error — `error InvalidProof()` (line 39) is declared but
never raised anywhere in the contract. -/
theorem invalid_proof_error_never_raised_counterexample :
    postAnonymous (fun _ => false) initState 1 1 1 1 1 [] = .error .externalRevert ∧
    postAnonymous (fun _ => false) initState 1 1 1 1 1 [] ≠ .error .InvalidProof := by
  constructor
  · rfl
  · intro hbad
    rw [show postAnonymous (fun _ => false) initState 1 1 1 1 1 [] =
        (.error .externalRevert : Except ContractError AnonSocialState) from rfl] at hbad
    exact ContractError.noConfusion (Except.error.inj hbad)

/-- Claim C9, amended: every failed `postAnonymous` / `voteAnonymous` call is
distinguishable by kind — it reverts with the contract's
`NullifierAlreadyUsed` error exactly when the nullifier key was already used,
and otherwise surfaces the external Semaphore validation revert (a failure
distinct from `NullifierAlreadyUsed`) exactly when `validateProof` rejects
the proof; the contract's declared `InvalidProof` error is never raised. -/
theorem error_kind_characterization (v : SemaphoreProof → Bool)
    (s : AnonSocialState) (d r n h t p : Nat) (u : Bool) (pts : List Nat) :
    (postAnonymous v s d r n h t pts = .error .NullifierAlreadyUsed ↔
        postNullifierKey n ∈ s.nullifiers) ∧
    (postAnonymous v s d r n h t pts = .error .externalRevert ↔
        postNullifierKey n ∉ s.nullifiers ∧ v (postSemProof d r n h pts) = false) ∧
    postAnonymous v s d r n h t pts ≠ .error .InvalidProof ∧
    (voteAnonymous v s d r n p u pts = .error .NullifierAlreadyUsed ↔
        voteNullifierKey p n ∈ s.nullifiers) ∧
    (voteAnonymous v s d r n p u pts = .error .externalRevert ↔
        voteNullifierKey p n ∉ s.nullifiers ∧ v (voteSemProof d r n p u pts) = false) ∧
    voteAnonymous v s d r n p u pts ≠ .error .InvalidProof := by
  refine ⟨?_, ?_, ?_, ?_, ?_, ?_⟩ <;>
    simp [postAnonymous_eq_error_iff, voteAnonymous_eq_error_iff]

/-- Claim C10: frame of `postAnonymous`. A successful post writes exactly one
storage slot — it marks `nullifiers[keccak256(abi.encodePacked("post",
nullifierHash))]` used — and changes nothing else: every vote tally is
untouched and the group membership is untouched; the post itself exists only
as the emitted `PostCreated` event, the contract stores no post record. -/
theorem postAnonymous_frame (v : SemaphoreProof → Bool) (s : AnonSocialState)
    (d r n h t : Nat) (pts : List Nat) (sp : AnonSocialState)
    (hok : postAnonymous v s d r n h t pts = .ok sp) :
    sp.nullifiers = postNullifierKey n :: s.nullifiers ∧
    (∀ k, k ∈ sp.nullifiers ↔ k = postNullifierKey n ∨ k ∈ s.nullifiers) ∧
    sp.postVotes = s.postVotes ∧
    (∀ q, getVotes sp q = getVotes s q) ∧
    sp.members = s.members ∧
    sp.events = s.events ++ [.PostCreated h t] := by
  obtain ⟨-, -, hs⟩ := postAnonymous_eq_ok_iff.mp hok
  subst hs
  exact ⟨rfl, fun k => by simp, rfl, fun q => rfl, rfl, rfl⟩

/-- Witness for C10, at a successful concrete post on the fresh ledger. -/
theorem postAnonymous_frame_witness :
    (AnonSocialState.mk [postNullifierKey 1] [] [] [.PostCreated 2 3]).nullifiers
        = postNullifierKey 1 :: initState.nullifiers ∧
    (AnonSocialState.mk [postNullifierKey 1] [] [] [.PostCreated 2 3]).postVotes
        = initState.postVotes :=
  ⟨(postAnonymous_frame (fun _ => true) initState 0 0 1 2 3 []
      (AnonSocialState.mk [postNullifierKey 1] [] [] [.PostCreated 2 3]) rfl).1,
   (postAnonymous_frame (fun _ => true) initState 0 0 1 2 3 []
      (AnonSocialState.mk [postNullifierKey 1] [] [] [.PostCreated 2 3]) rfl).2.2.1⟩

/-- Claim C3: message/scope binding. When the nullifier key is fresh, a
`voteAnonymous` call succeeds or fails exactly according to what the external
validator answers on the proof record whose message is
`keccak256(abi.encodePacked(postId, upvote))` and whose scope is
`keccak256(abi.encodePacked("anon-social-vote", postId))`; a `postAnonymous`
call likewise is decided exactly on the record with `message =
uint256(ipfsHash)` and `scope = keccak256("anon-social-post")`. -/
theorem message_scope_binding (v : SemaphoreProof → Bool) (s : AnonSocialState)
    (d r n p h t : Nat) (u : Bool) (pts : List Nat) :
    (voteNullifierKey p n ∉ s.nullifiers →
      ((∃ sv, voteAnonymous v s d r n p u pts = .ok sv) ↔
        v { merkleTreeDepth := d
            merkleTreeRoot := r
            nullifier := n
            message := keccak256 (beBytes 32 p ++ [if u then 1 else 0])
            scope := keccak256 (strBytes ("anon-social-vote") ++ beBytes 32 p)
            points := pts } = true) ∧
      (voteAnonymous v s d r n p u pts = .error .externalRevert ↔
        v { merkleTreeDepth := d
            merkleTreeRoot := r
            nullifier := n
            message := keccak256 (beBytes 32 p ++ [if u then 1 else 0])
            scope := keccak256 (strBytes ("anon-social-vote") ++ beBytes 32 p)
            points := pts } = false)) ∧
    (postNullifierKey n ∉ s.nullifiers →
      ((∃ sp, postAnonymous v s d r n h t pts = .ok sp) ↔
        v { merkleTreeDepth := d
            merkleTreeRoot := r
            nullifier := n
            message := h
            scope := keccak256 (strBytes ("anon-social-post"))
            points := pts } = true) ∧
      (postAnonymous v s d r n h t pts = .error .externalRevert ↔
        v { merkleTreeDepth := d
            merkleTreeRoot := r
            nullifier := n
            message := h
            scope := keccak256 (strBytes ("anon-social-post"))
            points := pts } = false)) := by
  have hv : ({ merkleTreeDepth := d
               merkleTreeRoot := r
               nullifier := n
               message := keccak256 (beBytes 32 p ++ [if u then 1 else 0])
               scope := keccak256 (strBytes ("anon-social-vote") ++ beBytes 32 p)
               points := pts } : SemaphoreProof) = voteSemProof d r n p u pts := rfl
  have hp : ({ merkleTreeDepth := d
               merkleTreeRoot := r
               nullifier := n
               message := h
               scope := keccak256 (strBytes ("anon-social-post"))
               points := pts } : SemaphoreProof) = postSemProof d r n h pts := rfl
  rw [hv, hp]
  constructor
  · intro hfresh
    constructor
    · constructor
      · rintro ⟨sv, hok⟩
        exact (voteAnonymous_eq_ok_iff.mp hok).2.1
      · intro hval
        exact ⟨_, voteAnonymous_eq_ok_iff.mpr ⟨hfresh, hval, rfl⟩⟩
    · rw [voteAnonymous_eq_error_iff]
      simp [hfresh]
  · intro hfresh
    constructor
    · constructor
      · rintro ⟨sp, hok⟩
        exact (postAnonymous_eq_ok_iff.mp hok).2.1
      · intro hval
        exact ⟨_, postAnonymous_eq_ok_iff.mpr ⟨hfresh, hval, rfl⟩⟩
    · rw [postAnonymous_eq_error_iff]
      simp [hfresh]

/-- Witness for C3: with an all-accepting validator and a fresh nullifier,
the vote goes through. -/
theorem message_scope_binding_witness :
    ∃ sv, voteAnonymous (fun _ => true) initState 0 0 1 2 true [] = .ok sv :=
  ((message_scope_binding (fun _ => true) initState 0 0 1 2 3 4 true []).1
    (by simp [initState])).1.mpr rfl

theorem strBytes_post_lt : ∀ b ∈ strBytes ("post"), b < 256 := by decide

theorem strBytes_vote_lt : ∀ b ∈ strBytes ("vote"), b < 256 := by decide

theorem packedPost_lt (n : Nat) :
    ∀ b ∈ strBytes ("post") ++ beBytes 32 n, b < 256 := by
  intro b hb
  rcases List.mem_append.mp hb with h | h
  · exact strBytes_post_lt b h
  · exact beBytes_lt 32 n b h

theorem packedVote_lt (p n : Nat) :
    ∀ b ∈ strBytes ("vote") ++ beBytes 32 p ++ beBytes 32 n, b < 256 := by
  intro b hb
  rcases List.mem_append.mp hb with h | h
  · rcases List.mem_append.mp h with h' | h'
    · exact strBytes_vote_lt b h'
    · exact beBytes_lt 32 p b h'
  · exact beBytes_lt 32 n b h

theorem pow256_32 : (256 : Nat) ^ 32 = 2 ^ 256 := by
  norm_num

/-- Claim C7: namespace independence of nullifier keys. For any nullifier and
any two distinct posts, the `abi.encodePacked` preimages of the post key and
of the two vote keys are pairwise distinct byte strings, and hence (keccak256
being modelled as collision-free) the keys themselves are pairwise distinct:
a nullifier used for voting on post A never collides with the key for voting
on post B or for posting. -/
theorem nullifier_namespace_independence (n A B : Nat)
    (hA : A < 2 ^ 256) (hB : B < 2 ^ 256) (hAB : A ≠ B) :
    strBytes ("post") ++ beBytes 32 n ≠
      strBytes ("vote") ++ beBytes 32 A ++ beBytes 32 n ∧
    strBytes ("post") ++ beBytes 32 n ≠
      strBytes ("vote") ++ beBytes 32 B ++ beBytes 32 n ∧
    strBytes ("vote") ++ beBytes 32 A ++ beBytes 32 n ≠
      strBytes ("vote") ++ beBytes 32 B ++ beBytes 32 n ∧
    postNullifierKey n ≠ voteNullifierKey A n ∧
    postNullifierKey n ≠ voteNullifierKey B n ∧
    voteNullifierKey A n ≠ voteNullifierKey B n := by
  have hlp : (strBytes ("post")).length = 4 := rfl
  have hlv : (strBytes ("vote")).length = 4 := rfl
  have hlen : ∀ x : Nat, strBytes ("post") ++ beBytes 32 n ≠
      strBytes ("vote") ++ beBytes 32 x ++ beBytes 32 n := by
    intro x heq
    have hl := congrArg List.length heq
    simp only [List.length_append, beBytes_length, hlp, hlv] at hl
    omega
  have hvv : strBytes ("vote") ++ beBytes 32 A ++ beBytes 32 n ≠
      strBytes ("vote") ++ beBytes 32 B ++ beBytes 32 n := by
    intro heq
    rw [List.append_assoc, List.append_assoc] at heq
    have h1 := List.append_cancel_left heq
    have h2 := List.append_cancel_right h1
    exact hAB (beBytes_inj (pow256_32 ▸ hA) (pow256_32 ▸ hB) h2)
  refine ⟨hlen A, hlen B, hvv, ?_, ?_, ?_⟩
  · intro heq
    exact hlen A (keccak256_inj _ _ (packedPost_lt n) (packedVote_lt A n) heq)
  · intro heq
    exact hlen B (keccak256_inj _ _ (packedPost_lt n) (packedVote_lt B n) heq)
  · intro heq
    exact hvv (keccak256_inj _ _ (packedVote_lt A n) (packedVote_lt B n) heq)

/-- Witness for C7 at nullifier 0 and posts 1 and 2. -/
theorem nullifier_namespace_independence_witness :
    (1 : Nat) < 2 ^ 256 ∧ postNullifierKey 0 ≠ voteNullifierKey 1 0 :=
  ⟨by norm_num,
   (nullifier_namespace_independence 0 1 2 (by norm_num) (by norm_num)
     (by decide)).2.2.2.1⟩

theorem runVotes_tally (v : SemaphoreProof → Bool) (p : Nat) :
    ∀ (calls : List VoteCall) (s sf : AnonSocialState),
      runVotes v p s calls = some sf →
      getVotes sf p = getVotes s p + (upCount calls : Int) - (downCount calls : Int) := by
  intro calls
  induction calls with
  | nil =>
    intro s sf h
    simp only [runVotes, Option.some.injEq] at h
    subst h
    simp [upCount, downCount]
  | cons c rest ih =>
    intro s sf h
    simp only [runVotes] at h
    cases hres : voteAnonymous v s c.merkleTreeDepth c.merkleTreeRoot
        c.nullifierHash p c.upvote c.points with
    | error e => rw [hres] at h; exact absurd h (by simp)
    | ok s' =>
      rw [hres] at h
      have htail := ih s' sf h
      obtain ⟨-, -, hs⟩ := voteAnonymous_eq_ok_iff.mp hres
      have hδ : getVotes s' p = getVotes s p + (if c.upvote then 1 else -1) := by
        rw [hs]
        cases hc : c.upvote <;> simp [getVotes, lookup_cons_self, sub_eq_add_neg]
      rw [htail, hδ]
      simp only [upCount, downCount, List.countP_cons]
      cases hc : c.upvote <;> simp [hc] <;> omega

/-- Claim C4: tally correctness. A fresh post has tally zero, and after any
sequence of accepted `voteAnonymous` calls on a post, `getVotes` returns the
number of upvotes minus the number of downvotes — a value depending only on
the multiset of votes, hence independent of arrival order (made explicit for
permuted sequences). -/
theorem tally_correct (v : SemaphoreProof → Bool) (p : Nat) :
    getVotes initState p = 0 ∧
    (∀ (calls : List VoteCall) (sf : AnonSocialState),
      runVotes v p initState calls = some sf →
      getVotes sf p = (upCount calls : Int) - (downCount calls : Int)) ∧
    (∀ (calls calls' : List VoteCall) (sf sf' : AnonSocialState),
      calls.Perm calls' →
      runVotes v p initState calls = some sf →
      runVotes v p initState calls' = some sf' →
      getVotes sf' p = getVotes sf p) := by
  refine ⟨rfl, fun calls sf h => ?_, fun calls calls' sf sf' hperm h h' => ?_⟩
  · have hrun := runVotes_tally v p calls initState sf h
    have h0 : getVotes initState p = 0 := rfl
    rw [hrun, h0]
    ring
  · have h1 := runVotes_tally v p calls initState sf h
    have h2 := runVotes_tally v p calls' initState sf' h'
    have hup : upCount calls = upCount calls' := hperm.countP_eq _
    have hdn : downCount calls = downCount calls' := hperm.countP_eq _
    rw [h1, h2, hup, hdn]

set_option maxRecDepth 8192 in
/-- Witness for C4: two upvotes and one downvote on post 5, all accepted,
yield a tally of 1. -/
theorem tally_correct_witness :
    getVotes (AnonSocialState.mk
      [voteNullifierKey 5 3, voteNullifierKey 5 2, voteNullifierKey 5 1]
      [(5, 1), (5, 2), (5, 1)] []
      [.VoteCast 5 true, .VoteCast 5 true, .VoteCast 5 false]) 5 =
      ((upCount [VoteCall.mk 0 0 1 true [], VoteCall.mk 0 0 2 true [],
        VoteCall.mk 0 0 3 false []] : Int) -
       (downCount [VoteCall.mk 0 0 1 true [], VoteCall.mk 0 0 2 true [],
        VoteCall.mk 0 0 3 false []] : Int)) :=
  (tally_correct (fun _ => true) 5).2.1
    [VoteCall.mk 0 0 1 true [], VoteCall.mk 0 0 2 true [], VoteCall.mk 0 0 3 false []]
    (AnonSocialState.mk
      [voteNullifierKey 5 3, voteNullifierKey 5 2, voteNullifierKey 5 1]
      [(5, 1), (5, 2), (5, 1)] []
      [.VoteCast 5 true, .VoteCast 5 true, .VoteCast 5 false])
    (by decide)

/-! ## Codec lemmas -/

theorem foldl_mulAdd (b : Nat) : ∀ (l : List Nat) (a : Nat),
    l.foldl (fun acc d => acc * b + d) a = a * b ^ l.length + Nat.ofDigits b l.reverse := by
  intro l
  induction l with
  | nil => intro a; simp [Nat.ofDigits_nil]
  | cons x t ih =>
    intro a
    simp only [List.foldl_cons, List.length_cons, List.reverse_cons]
    rw [ih]
    have happ : Nat.ofDigits b (t.reverse ++ [x]) =
        Nat.ofDigits b t.reverse + b ^ t.reverse.length * Nat.ofDigits b [x] := by
      exact_mod_cast Nat.ofDigits_append
    rw [happ]
    simp only [Nat.ofDigits_singleton, List.length_reverse, pow_succ]
    ring

theorem foldBase_eq_ofDigits (b : Nat) (l : List Nat) :
    foldBase b l = Nat.ofDigits b l.reverse := by
  unfold foldBase
  rw [foldl_mulAdd]
  simp

theorem toDigitsBE_lt (b : Nat) (hb : 0 < b) :
    ∀ (fuel value : Nat), ∀ d ∈ toDigitsBE b fuel value, d < b := by
  intro fuel
  induction fuel with
  | zero => intro value d hd; simp [toDigitsBE] at hd
  | succ fuel ih =>
    intro value d hd
    simp only [toDigitsBE] at hd
    by_cases hv : value = 0
    · rw [if_pos hv] at hd; simp at hd
    · rw [if_neg hv] at hd
      rcases List.mem_append.mp hd with hd | hd
      · exact ih _ d hd
      · simp only [List.mem_singleton] at hd
        subst hd
        exact Nat.mod_lt _ hb

theorem toDigitsBE_eq (b : Nat) (hb : 1 < b) :
    ∀ (fuel value : Nat), value ≤ fuel →
      toDigitsBE b fuel value = (Nat.digits b value).reverse := by
  intro fuel
  induction fuel with
  | zero =>
    intro value hv
    rw [Nat.le_zero.mp hv]
    simp [toDigitsBE]
  | succ fuel ih =>
    intro value hv
    simp only [toDigitsBE]
    by_cases h0 : value = 0
    · rw [if_pos h0, h0]
      simp
    · rw [if_neg h0]
      have hdiv : value / b ≤ fuel := by
        have h1 : value / b < value := Nat.div_lt_self (Nat.pos_of_ne_zero h0) hb
        omega
      rw [ih _ hdiv, Nat.digits_def' hb (Nat.pos_of_ne_zero h0), List.reverse_cons]

theorem natToBase_eq (b : Nat) (hb : 1 < b) (value : Nat) :
    natToBase b value = (Nat.digits b value).reverse :=
  toDigitsBE_eq b hb value value le_rfl

theorem idxIn_lt : ∀ (l : List Char) (c : Char) (i : Nat),
    idxIn l c = some i → i < l.length := by
  intro l
  induction l with
  | nil => intro c i h; exact Option.noConfusion h
  | cons a t ih =>
    intro c i h
    simp only [idxIn] at h
    by_cases hac : a = c
    · rw [if_pos hac] at h
      cases h
      simp
    · rw [if_neg hac] at h
      cases ht : idxIn t c with
      | none => rw [ht] at h; simp at h
      | some j =>
        rw [ht] at h
        simp only [Option.map_some', Option.some.injEq] at h
        have := ih c j ht
        simp only [List.length_cons]
        omega

theorem idxIn_getD : ∀ (l : List Char) (c : Char) (i : Nat),
    idxIn l c = some i → l.getD i ' ' = c := by
  intro l
  induction l with
  | nil => intro c i h; exact Option.noConfusion h
  | cons a t ih =>
    intro c i h
    simp only [idxIn] at h
    by_cases hac : a = c
    · rw [if_pos hac] at h
      cases h
      simpa using hac
    · rw [if_neg hac] at h
      cases ht : idxIn t c with
      | none => rw [ht] at h; simp at h
      | some j =>
        rw [ht] at h
        simp only [Option.map_some', Option.some.injEq] at h
        subst h
        simpa using ih c j ht

theorem b58Digits_cons {c : Char} {rest : List Char} {ds : List Nat}
    (h : b58Digits (c :: rest) = some ds) :
    ∃ d ds', idxIn BASE58_ALPHABET c = some d ∧ b58Digits rest = some ds' ∧
      ds = d :: ds' := by
  simp only [b58Digits] at h
  cases hi : idxIn BASE58_ALPHABET c with
  | none => rw [hi] at h; simp at h
  | some d =>
    cases hr : b58Digits rest with
    | none => rw [hi, hr] at h; simp at h
    | some ds' =>
      rw [hi, hr] at h
      simp only [Option.some.injEq] at h
      exact ⟨d, ds', rfl, rfl, h.symm⟩

theorem b58Digits_spec : ∀ (cs : List Char) (ds : List Nat), b58Digits cs = some ds →
    ds.map (fun d => BASE58_ALPHABET.getD d ' ') = cs ∧ ∀ d ∈ ds, d < 58 := by
  intro cs
  induction cs with
  | nil =>
    intro ds h
    simp only [b58Digits, Option.some.injEq] at h
    subst h
    simp
  | cons c rest ih =>
    intro ds h
    obtain ⟨d, ds', hi, hr, hds⟩ := b58Digits_cons h
    subst hds
    obtain ⟨hmap, hlt⟩ := ih ds' hr
    refine ⟨?_, ?_⟩
    · simp only [List.map_cons]
      rw [hmap]
      show BASE58_ALPHABET.getD d ' ' :: rest = c :: rest
      rw [idxIn_getD _ _ _ hi]
    · intro x hx
      rcases List.mem_cons.mp hx with hx | hx
      · subst hx
        have := idxIn_lt _ _ _ hi
        simpa using this
      · exact hlt x hx

theorem base58Decode_eq {c : String} {l : List Nat} (hne : c.toList ≠ [])
    (h : base58Decode c = some l) :
    ∃ ds, b58Digits c.toList = some ds ∧
      l = List.replicate ((c.toList.takeWhile (fun ch => ch == '1')).length) 0 ++
          natToBase 256 (foldBase 58 ds) := by
  unfold base58Decode at h
  rw [if_neg (by simpa using (List.length_pos.mpr hne).ne')] at h
  cases hds : b58Digits c.toList with
  | none => rw [hds] at h; exact absurd h (by simp)
  | some ds =>
    rw [hds] at h
    simp only [Option.some.injEq] at h
    exact ⟨ds, rfl, h.symm⟩

theorem base58Decode_lt {c : String} {l : List Nat} (h : base58Decode c = some l) :
    ∀ b ∈ l, b < 256 := by
  unfold base58Decode at h
  by_cases h0 : c.length = 0
  · rw [if_pos h0] at h
    simp only [Option.some.injEq] at h
    subst h
    intro b hb
    simp at hb
  · rw [if_neg h0] at h
    cases hds : b58Digits c.toList with
    | none => rw [hds] at h; exact absurd h (by simp)
    | some ds =>
      rw [hds] at h
      simp only [Option.some.injEq] at h
      subst h
      intro b hb
      rcases List.mem_append.mp hb with hb | hb
      · rw [List.eq_of_mem_replicate hb]
        norm_num
      · exact toDigitsBE_lt 256 (by norm_num) _ _ b hb

theorem hexVal_hexChar : ∀ d, d < 16 → hexVal (hexChar d) = some d := by decide

theorem parseHexPair_byteToHex {b : Nat} (hb : b < 256) :
    parseHexPair (hexChar (b / 16)) (hexChar (b % 16)) = b := by
  unfold parseHexPair
  rw [hexVal_hexChar (b / 16) (by omega), hexVal_hexChar (b % 16) (by omega)]
  show b / 16 * 16 + b % 16 = b
  omega

theorem hexPairs_flatMap : ∀ (l : List Nat), (∀ b ∈ l, b < 256) →
    hexPairs (l.flatMap byteToHex) = l := by
  intro l
  induction l with
  | nil => intro _; rfl
  | cons b t ih =>
    intro hb
    simp only [List.flatMap_cons, byteToHex, List.cons_append, List.nil_append]
    show parseHexPair (hexChar (b / 16)) (hexChar (b % 16)) :: hexPairs (t.flatMap byteToHex) = b :: t
    rw [parseHexPair_byteToHex (hb b (List.mem_cons_self b t)),
      ih (fun x hx => hb x (List.mem_cons_of_mem _ hx))]

theorem flatMap_byteToHex_length : ∀ l : List Nat,
    (l.flatMap byteToHex).length = 2 * l.length := by
  intro l
  induction l with
  | nil => rfl
  | cons b t ih =>
    simp only [List.flatMap_cons, byteToHex, List.length_append, List.length_cons,
      List.length_nil, ih]
    omega

theorem base58Encode_eq (bytes : List Nat) (hne : bytes ≠ []) :
    base58Encode bytes =
      List.asString (List.replicate ((bytes.takeWhile (fun b => b == 0)).length) '1') ++
        (if List.asString ((natToBase 58 (foldBase 256 bytes)).map
            (fun d => BASE58_ALPHABET.getD d ' ')) = ("") then ("1")
         else List.asString ((natToBase 58 (foldBase 256 bytes)).map
            (fun d => BASE58_ALPHABET.getD d ' '))) := by
  unfold base58Encode
  rw [if_neg hne]

theorem bytes32ToCid_hex (t : List Char) :
    bytes32ToCid (List.asString ('0' :: 'x' :: t)) =
      if t.length ≠ 64 then none
      else some (base58Encode (18 :: 32 :: hexPairs t)) := by
  unfold bytes32ToCid
  have hsw : strStartsWith (List.asString ('0' :: 'x' :: t)) ("0x") = true := by
    simp [strStartsWith, List.isPrefixOf]
  rw [if_pos hsw]
  rfl

/-- Claim C5: codec round-trip. For every valid legacy content identifier —
a base-58 `Qm…` string whose decoded form is the `0x12 0x20` prefix followed
by a 32-byte digest — converting to the on-chain `bytes32` hex form and back
reproduces the identifier exactly: `bytes32ToCid (cidToBytes32 c) = c`. -/
theorem codec_round_trip (c : String) (digest : List Nat)
    (hQm : strStartsWith c ("Qm") = true)
    (hdec : base58Decode c = some (18 :: 32 :: digest))
    (hlen : digest.length = 32) :
    ∃ h, cidToBytes32 c = some h ∧ bytes32ToCid h = some c := by
  have hpre : (("Qm").toList) <+: c.toList := by
    have hq := hQm
    unfold strStartsWith at hq
    exact List.isPrefixOf_iff_prefix.mp hq
  obtain ⟨rest, hrest⟩ := hpre
  have hdata : c.toList = 'Q' :: 'm' :: rest := by rw [← hrest]; rfl
  have hne : c.toList ≠ [] := by rw [hdata]; simp
  obtain ⟨ds, hds, hl⟩ := base58Decode_eq hne hdec
  have hq1 : ('Q' == '1') = false := by decide
  have htake : c.toList.takeWhile (fun ch => ch == '1') = [] := by
    rw [hdata]
    simp [List.takeWhile_cons, hq1]
  rw [htake] at hl
  simp only [List.length_nil, List.replicate, List.nil_append] at hl
  rw [natToBase_eq 256 (by norm_num)] at hl
  obtain ⟨hmap, hlt⟩ := b58Digits_spec c.toList ds hds
  have hdsQ : b58Digits ('Q' :: 'm' :: rest) = some ds := hdata ▸ hds
  obtain ⟨d0, ds', hi0, -, hcons⟩ := b58Digits_cons hdsQ
  have hd0 : d0 = 23 := by
    have h23 : idxIn BASE58_ALPHABET 'Q' = some 23 := by decide
    rw [h23] at hi0
    exact (Option.some.inj hi0).symm
  have hdigits58 : Nat.digits 58 (foldBase 58 ds) = ds.reverse := by
    rw [foldBase_eq_ofDigits]
    refine Nat.digits_ofDigits 58 (by norm_num) ds.reverse ?_ ?_
    · intro x hx
      exact hlt x (List.mem_reverse.mp hx)
    · intro hne'
      have hlast : ds.reverse.getLast? = some d0 := by
        rw [List.getLast?_reverse, hcons]
        rfl
      rw [List.getLast?_eq_getLast ds.reverse hne'] at hlast
      rw [Option.some.inj hlast, hd0]
      norm_num
  have henc : base58Encode (18 :: 32 :: digest) = c := by
    rw [base58Encode_eq _ (by simp)]
    have hV : foldBase 256 (18 :: 32 :: digest) = foldBase 58 ds := by
      rw [foldBase_eq_ofDigits 256, hl, List.reverse_reverse, Nat.ofDigits_digits]
    have h18 : ((18 : Nat) == 0) = false := by decide
    have htw : (18 :: 32 :: digest).takeWhile (fun b => b == 0) = [] := by
      simp [List.takeWhile_cons, h18]
    rw [htw, hV, natToBase_eq 58 (by norm_num), hdigits58, List.reverse_reverse, hmap]
    have hne2 : ¬(List.asString c.toList = ("")) := by
      rw [hdata]
      intro hh
      have hhl : 'Q' :: 'm' :: rest = ([] : List Char) := congrArg String.toList hh
      exact List.noConfusion hhl
    rw [if_neg hne2]
    rfl
  have hext : extractSha256DigestFromCid c = some digest := by
    unfold extractSha256DigestFromCid
    rw [if_pos hQm, hdec]
    show (if (18 :: 32 :: digest).length = 34 ∧ (18 :: 32 :: digest).getD 0 0 = 18 ∧
        (18 :: 32 :: digest).getD 1 0 = 32 then some ((18 :: 32 :: digest).drop 2)
      else none) = some digest
    rw [if_pos ⟨by simp [hlen], rfl, rfl⟩]
    rfl
  have hcid : cidToBytes32 c = some (List.asString ('0' :: 'x' :: digest.flatMap byteToHex)) := by
    unfold cidToBytes32
    rw [hext]
    rfl
  have hby : ∀ b ∈ digest, b < 256 := by
    intro b hb
    exact base58Decode_lt hdec b (by simp [hb])
  have hb2c : bytes32ToCid (List.asString ('0' :: 'x' :: digest.flatMap byteToHex)) = some c := by
    rw [bytes32ToCid_hex]
    rw [if_neg (by simp only [flatMap_byteToHex_length, hlen]; norm_num)]
    rw [hexPairs_flatMap digest hby, henc]
  exact ⟨_, hcid, hb2c⟩

set_option maxRecDepth 8192 in
/-- Witness for C5 at a concrete CIDv0. -/
theorem codec_round_trip_witness :
    ∃ h, cidToBytes32 ("QmYwAPJzv5CZsnA625s3Xf2nemtYgPpHdWEz79ojWnPbdG") = some h ∧
      bytes32ToCid h = some ("QmYwAPJzv5CZsnA625s3Xf2nemtYgPpHdWEz79ojWnPbdG") :=
  codec_round_trip ("QmYwAPJzv5CZsnA625s3Xf2nemtYgPpHdWEz79ojWnPbdG")
    [157, 108, 43, 229, 15, 112, 105, 83, 71, 154, 185, 223, 44, 227, 237, 202,
     144, 182, 128, 83, 192, 11, 48, 4, 183, 240, 172, 203, 225, 232, 238, 223]
    (by decide) (by decide) (by decide)

theorem b58Digits_none {cs : List Char} {ch : Char} (hch : ch ∈ cs)
    (hbad : idxIn BASE58_ALPHABET ch = none) : b58Digits cs = none := by
  induction cs with
  | nil => simp at hch
  | cons a t ih =>
    rcases List.mem_cons.mp hch with h | h
    · subst h
      simp only [b58Digits]
      rw [hbad]
    · simp only [b58Digits]
      cases hi : idxIn BASE58_ALPHABET a with
      | none => rfl
      | some d => rw [ih h]

theorem base58Decode_none_of_bad {c : String} {ch : Char} (hch : ch ∈ c.toList)
    (hbad : idxIn BASE58_ALPHABET ch = none) : base58Decode c = none := by
  unfold base58Decode
  rw [if_neg (by simpa using (List.length_pos.mpr (List.ne_nil_of_mem hch)).ne'),
    b58Digits_none hch hbad]

/-- Claim C6: codec rejection. Every malformed content identifier is refused
by `cidToBytes32` (the JS throw, `none` here), never silently converted: a
legacy `Qm…` string whose base-58 decoding fails (in particular one holding a
character outside the base-58 alphabet) or decodes to anything but
`0x12 0x20 ‖ 32-byte digest`; a modern `b…` string whose base-32 decoding
fails, or whose varint header has version ≠ 1, codec tag 0, hash tag ≠ 0x12
or digest length ≠ 32, or whose digest slice is shorter than 32 bytes; and
any string with neither prefix. Conversely a successful legacy conversion
returns exactly the 32-byte digest embedded in the identifier. -/
theorem codec_rejects_malformed (c : String) :
    (strStartsWith c ("Qm") = true → base58Decode c = none →
      cidToBytes32 c = none) ∧
    (∀ dec, strStartsWith c ("Qm") = true → base58Decode c = some dec →
      ¬(dec.length = 34 ∧ dec.getD 0 0 = 18 ∧ dec.getD 1 0 = 32) →
      cidToBytes32 c = none) ∧
    (∀ ch, ch ∈ c.toList → idxIn BASE58_ALPHABET ch = none →
      strStartsWith c ("Qm") = true → cidToBytes32 c = none) ∧
    (strStartsWith c ("Qm") = false → strStartsWith c ("b") = true →
      base32Decode (String.drop c 1) = none → cidToBytes32 c = none) ∧
    (∀ dec v n₁, strStartsWith c ("Qm") = false → strStartsWith c ("b") = true →
      base32Decode (String.drop c 1) = some dec → readVarint dec 0 = some (v, n₁) →
      v ≠ 1 → cidToBytes32 c = none) ∧
    (∀ dec n₁ cd n₂, strStartsWith c ("Qm") = false → strStartsWith c ("b") = true →
      base32Decode (String.drop c 1) = some dec → readVarint dec 0 = some (1, n₁) →
      readVarint dec n₁ = some (cd, n₂) → cd = 0 → cidToBytes32 c = none) ∧
    (∀ dec n₁ cd n₂ hc n₃ hl n₄, strStartsWith c ("Qm") = false →
      strStartsWith c ("b") = true → base32Decode (String.drop c 1) = some dec →
      readVarint dec 0 = some (1, n₁) → readVarint dec n₁ = some (cd, n₂) → cd ≠ 0 →
      readVarint dec n₂ = some (hc, n₃) → readVarint dec n₃ = some (hl, n₄) →
      (hc ≠ 18 ∨ hl ≠ 32) → cidToBytes32 c = none) ∧
    (∀ dec n₁ cd n₂ n₃ n₄, strStartsWith c ("Qm") = false →
      strStartsWith c ("b") = true → base32Decode (String.drop c 1) = some dec →
      readVarint dec 0 = some (1, n₁) → readVarint dec n₁ = some (cd, n₂) → cd ≠ 0 →
      readVarint dec n₂ = some (18, n₃) → readVarint dec n₃ = some (32, n₄) →
      ((dec.drop n₄).take 32).length ≠ 32 → cidToBytes32 c = none) ∧
    (strStartsWith c ("Qm") = false → strStartsWith c ("b") = false →
      cidToBytes32 c = none) ∧
    (∀ d, strStartsWith c ("Qm") = true → extractSha256DigestFromCid c = some d →
      base58Decode c = some (18 :: 32 :: d) ∧ d.length = 32) := by
  refine ⟨?_, ?_, ?_, ?_, ?_, ?_, ?_, ?_, ?_, ?_⟩
  · intro hQm hnone
    unfold cidToBytes32 extractSha256DigestFromCid
    rw [if_pos hQm]
    simp [hnone]
  · intro dec hQm hdec hbad
    unfold cidToBytes32 extractSha256DigestFromCid
    rw [if_pos hQm]
    simp only [hdec]
    rw [if_neg hbad]
    rfl
  · intro ch hch hbadch hQm
    have hnone := base58Decode_none_of_bad hch hbadch
    unfold cidToBytes32 extractSha256DigestFromCid
    rw [if_pos hQm]
    simp [hnone]
  · intro hQmf hb hnone
    unfold cidToBytes32 extractSha256DigestFromCid
    rw [if_neg (by simp [hQmf]), if_pos hb]
    simp [hnone]
  · intro dec v n₁ hQmf hb hdec32 hv0 hv
    unfold cidToBytes32 extractSha256DigestFromCid
    rw [if_neg (by simp [hQmf]), if_pos hb]
    simp only [hdec32, hv0]
    simp [hv]
  · intro dec n₁ cd n₂ hQmf hb hdec32 hv0 hv1 hcd
    unfold cidToBytes32 extractSha256DigestFromCid
    rw [if_neg (by simp [hQmf]), if_pos hb]
    simp only [hdec32, hv0, hv1]
    simp [hcd]
  · intro dec n₁ cd n₂ hc n₃ hl n₄ hQmf hb hdec32 hv0 hv1 hcd hv2 hv3 hbad
    unfold cidToBytes32 extractSha256DigestFromCid
    rw [if_neg (by simp [hQmf]), if_pos hb]
    simp only [hdec32, hv0, hv1, hv2, hv3]
    rcases hbad with hbad | hbad <;> simp [hcd, hbad]
  · intro dec n₁ cd n₂ n₃ n₄ hQmf hb hdec32 hv0 hv1 hcd hv2 hv3 hshort
    unfold cidToBytes32 extractSha256DigestFromCid
    rw [if_neg (by simp [hQmf]), if_pos hb]
    simp only [hdec32, hv0, hv1, hv2, hv3]
    have hshort2 : dec.length - n₄ < 32 := by
      simp only [List.length_take, List.length_drop] at hshort
      omega
    simp [hcd, hshort2]
  · intro hQmf hbf
    unfold cidToBytes32 extractSha256DigestFromCid
    rw [if_neg (by simp [hQmf]), if_neg (by simp [hbf])]
    rfl
  · intro d hQm hext
    unfold extractSha256DigestFromCid at hext
    rw [if_pos hQm] at hext
    cases hdec58 : base58Decode c with
    | none => rw [hdec58] at hext; simp at hext
    | some dec =>
      simp only [hdec58] at hext
      by_cases hcond : dec.length = 34 ∧ dec.getD 0 0 = 18 ∧ dec.getD 1 0 = 32
      · rw [if_pos hcond] at hext
        obtain ⟨hL, h0, h1⟩ := hcond
        have hd : dec.drop 2 = d := by simpa using hext
        cases dec with
        | nil => simp at hL
        | cons a t =>
          cases t with
          | nil => simp at hL
          | cons b restd =>
            have ha : a = 18 := by simpa using h0
            have hb' : b = 32 := by simpa using h1
            have hd' : restd = d := by simpa using hd
            subst ha hb' hd'
            refine ⟨rfl, ?_⟩
            simp at hL
            omega
      · rw [if_neg hcond] at hext
        simp at hext

/-- Witness for C6: a string with neither recognized prefix is rejected. -/
theorem codec_rejects_malformed_witness :
    cidToBytes32 ("hello") = none :=
  (codec_rejects_malformed ("hello")).2.2.2.2.2.2.2.2.1 (by decide) (by decide)

/-- Witness for the amended C9 at a concrete used nullifier key. -/
theorem error_kind_characterization_witness :
    postAnonymous (fun _ => true) (AnonSocialState.mk [postNullifierKey 1] [] [] [])
      0 0 1 2 3 [] = .error .NullifierAlreadyUsed :=
  (error_kind_characterization (fun _ => true)
    (AnonSocialState.mk [postNullifierKey 1] [] [] []) 0 0 1 2 3 4 true []).1.mpr
    (List.mem_cons_self _ _)
